import Mathlib

/-!
Shallow embedding of the `cronschedule` Go package (src/cronschedule.go) and
proofs about its specification.  Strings are modeled as `List Char` (Go strings
here are ASCII), Go `int` as `Int`, Go `map[int]int` as an association list
`List (Int × Int)` with unique keys in insertion order (the code only ever
tests membership, increments counts, clears, and sorts the keys, so iteration
order never matters), and `time.Time` as a civil local-calendar instant
(year, month, day, hour, minute, second, nanosecond) on the proleptic
Gregorian calendar.
-/

set_option maxHeartbeats 4000000
set_option maxRecDepth 100000

/-- Decides whether a character is an ASCII decimal digit (the `\d` of the
field-value regex). -/
def isDigitCh (c : Char) : Bool := '0' ≤ c && c ≤ '9'

/-- Characters stripped by Go's `strings.TrimSpace` that can occur in ASCII
input (space, tab, newline, vertical tab, form feed, carriage return). -/
def isSpaceCh (c : Char) : Bool :=
  c = ' ' || c = '\t' || c = '\n' || c = '\x0b' || c = '\x0c' || c = '\r'

/-- Model of `strings.TrimSpace` on ASCII input. -/
def trimChars (l : List Char) : List Char :=
  ((l.dropWhile isSpaceCh).reverse.dropWhile isSpaceCh).reverse

/-- Model of Go `strings.Split(s, sep)` for a one-character separator: splitting
the empty string yields `[[]]`, and consecutive separators yield empty pieces,
exactly as in Go. -/
def splitOnChar (sep : Char) : List Char → List (List Char)
  | [] => [[]]
  | c :: rest =>
    let r := splitOnChar sep rest
    if c = sep then [] :: r
    else
      match r with
      | [] => [[c]]
      | h :: t => (c :: h) :: t

/-- Numeric value of a list of ASCII digits. -/
def digitsVal (l : List Char) : Nat :=
  l.foldl (fun acc c => acc * 10 + (c.toNat - '0'.toNat)) 0

/-- Model of `strconv.Atoi` restricted to the digit-only captures produced by
the field-value regex: fails on the empty string and on values that overflow a
64-bit Go `int`, otherwise returns the decimal value. -/
def goAtoi (l : List Char) : Option Int :=
  if l = [] then none
  else if digitsVal l ≤ 9223372036854775807 then some (digitsVal l)
  else none

/-- Leap-year test on the proleptic Gregorian calendar.  The Go source decides
February's length by asking whether `time.Date(year, December, 31).YearDay()`
exceeds 365, which holds exactly for Gregorian leap years. -/
def isLeapYear (y : Int) : Bool :=
  (y % 4 = 0 && y % 100 ≠ 0) || y % 400 = 0

/-- Model of `daysPerMonth` (src/cronschedule.go:260).  The Go function panics
on a month outside 1..12; that arm is modeled as 0 and is unreachable for the
in-domain months a parsed schedule stores. -/
def daysPerMonth (month : Int) (year : Int) : Int :=
  if month = 1 ∨ month = 3 ∨ month = 5 ∨ month = 7 ∨ month = 8 ∨ month = 10 ∨ month = 12 then 31
  else if month = 4 ∨ month = 6 ∨ month = 9 ∨ month = 11 then 30
  else if month = 2 then (if isLeapYear year then 29 else 28)
  else 0

/-- Number of days from 1970-01-01 to the given civil date (standard civil
calendar algorithm over the proleptic Gregorian calendar, which is the
calendar Go's `time` package computes with). -/
def daysFromCivil (y m d : Int) : Int :=
  let y' := if m ≤ 2 then y - 1 else y
  let era := (if 0 ≤ y' then y' else y' - 399) / 400
  let yoe := y' - era * 400
  let mp := if m > 2 then m - 3 else m + 9
  let doy := (153 * mp + 2) / 5 + d - 1
  let doe := yoe * 365 + yoe / 4 - yoe / 100 + doy
  era * 146097 + doe - 719468

/-- Model of `t.Weekday()` for the civil date (y, m, d): 0 = Sunday … 6 =
Saturday, anchored at 1970-01-01 being a Thursday (= 4). -/
def weekdayOf (y m d : Int) : Int :=
  (daysFromCivil y m d + 4) % 7

/-- Civil instant in the process-local calendar, modeling `time.Time`
(the package never leaves `time.Local`, and the model ignores DST). -/
structure GoTime where
  year : Int
  month : Int
  day : Int
  hour : Int
  minute : Int
  second : Int
  nano : Int
deriving DecidableEq, Repr

/-- Model of `t.Add(1 * time.Minute)` as civil-calendar minute increment with
carry; seconds and nanoseconds are unchanged. -/
def addOneMinute (t : GoTime) : GoTime :=
  if t.minute + 1 ≤ 59 then { t with minute := t.minute + 1 }
  else if t.hour + 1 ≤ 23 then { t with minute := 0, hour := t.hour + 1 }
  else if t.day + 1 ≤ daysPerMonth t.month t.year then
    { t with minute := 0, hour := 0, day := t.day + 1 }
  else if t.month + 1 ≤ 12 then
    { t with minute := 0, hour := 0, day := 1, month := t.month + 1 }
  else
    { t with minute := 0, hour := 0, day := 1, month := 1, year := t.year + 1 }

/-- Field domain constant (src/cronschedule.go:28). -/
def FieldMinuteMin : Int := 0

/-- Field domain constant (src/cronschedule.go:29). -/
def FieldMinuteMax : Int := 59

/-- Field domain constant (src/cronschedule.go:30). -/
def FieldHourMin : Int := 0

/-- Field domain constant (src/cronschedule.go:31). -/
def FieldHourMax : Int := 23

/-- Field domain constant (src/cronschedule.go:32). -/
def FieldDayOfMonthMin : Int := 1

/-- Field domain constant (src/cronschedule.go:33). -/
def FieldDayOfMonthMax : Int := 31

/-- Field domain constant (src/cronschedule.go:34). -/
def FieldMonthMin : Int := 1

/-- Field domain constant (src/cronschedule.go:35). -/
def FieldMonthMax : Int := 12

/-- Field domain constant (src/cronschedule.go:36). -/
def FieldDayOfTheWeekMin : Int := 0

/-- Field domain constant (src/cronschedule.go:37). -/
def FieldDayOfTheWeekMax : Int := 6

/-- Parsed cron schedule (src/cronschedule.go:41).  Go's `map[int]int` fields
are association lists with unique keys; the `…Slice` fields are the sorted key
lists built by `buildSlices`; the `…Str` fields retain the textual tokens. -/
structure Schedule where
  Minutes : List (Int × Int)
  MinutesSlice : List Int
  MinutesStr : List (List Char)
  Hours : List (Int × Int)
  HoursSlice : List Int
  HoursStr : List (List Char)
  DaysOfMonth : List (Int × Int)
  DaysOfMonthSlice : List Int
  DaysOfMonthStr : List (List Char)
  Months : List (Int × Int)
  MonthsSlice : List Int
  MonthsStr : List (List Char)
  DaysOfTheWeek : List (Int × Int)
  DaysOfWeekSlice : List Int
  DaysOfTheWeekStr : List (List Char)
  ScheduleStr : List Char
deriving DecidableEq, Repr

/-- Membership test in a modeled `map[int]int` (the `_, ok := m[k]` idiom). -/
def mapMem (m : List (Int × Int)) (k : Int) : Bool :=
  m.any (fun p => p.1 = k)

/-- The `if ok { m[k] += 1 } else { m[k] = 1 }` idiom of the Add functions. -/
def mapIncr (m : List (Int × Int)) (k : Int) : List (Int × Int) :=
  if mapMem m k then m.map (fun p => if p.1 = k then (p.1, p.2 + 1) else p)
  else m ++ [(k, 1)]

/-- Shared loop body of the five Add functions: values outside [lo, hi] are
skipped, the rest are inserted or have their count bumped. -/
def addValues (m : List (Int × Int)) (vals : List Int) (lo hi : Int) : List (Int × Int) :=
  match vals with
  | [] => m
  | v :: rest =>
    if v < lo ∨ v > hi then addValues m rest lo hi
    else addValues (mapIncr m v) rest lo hi

/-- Model of `AddMinutes` (src/cronschedule.go:289). -/
def AddMinutes (s : Schedule) (minutes : List Int) : Schedule :=
  { s with Minutes := addValues s.Minutes minutes FieldMinuteMin FieldMinuteMax }

/-- Model of `AddHours` (src/cronschedule.go:304). -/
def AddHours (s : Schedule) (hours : List Int) : Schedule :=
  { s with Hours := addValues s.Hours hours FieldHourMin FieldHourMax }

/-- Model of `AddDaysOfMonth` (src/cronschedule.go:319). -/
def AddDaysOfMonth (s : Schedule) (daysOfMonth : List Int) : Schedule :=
  { s with DaysOfMonth := addValues s.DaysOfMonth daysOfMonth FieldDayOfMonthMin FieldDayOfMonthMax }

/-- Model of `AddMonths` (src/cronschedule.go:334). -/
def AddMonths (s : Schedule) (months : List Int) : Schedule :=
  { s with Months := addValues s.Months months FieldMonthMin FieldMonthMax }

/-- Model of `AddDaysOfTheWeek` (src/cronschedule.go:349). -/
def AddDaysOfTheWeek (s : Schedule) (daysOfTheWeek : List Int) : Schedule :=
  { s with DaysOfTheWeek := addValues s.DaysOfTheWeek daysOfTheWeek FieldDayOfTheWeekMin FieldDayOfTheWeekMax }

/-- Model of `AddByIndex` (src/cronschedule.go:364); an index outside 0..4 is a
no-op, as in the Go switch. -/
def AddByIndex (s : Schedule) (values : List Int) (index : Nat) : Schedule :=
  match index with
  | 0 => AddMinutes s values
  | 1 => AddHours s values
  | 2 => AddDaysOfMonth s values
  | 3 => AddMonths s values
  | 4 => AddDaysOfTheWeek s values
  | _ => s

/-- Model of `AddFieldStrByIndex` (src/cronschedule.go:380). -/
def AddFieldStrByIndex (s : Schedule) (fieldStr : List Char) (index : Nat) : Schedule :=
  match index with
  | 0 => { s with MinutesStr := s.MinutesStr ++ [fieldStr] }
  | 1 => { s with HoursStr := s.HoursStr ++ [fieldStr] }
  | 2 => { s with DaysOfMonthStr := s.DaysOfMonthStr ++ [fieldStr] }
  | 3 => { s with MonthsStr := s.MonthsStr ++ [fieldStr] }
  | 4 => { s with DaysOfTheWeekStr := s.DaysOfTheWeekStr ++ [fieldStr] }
  | _ => s

/-- Insert into an ascending list (helper for the `sort.Ints` model). -/
def insertSorted (x : Int) : List Int → List Int
  | [] => [x]
  | y :: ys => if x ≤ y then x :: y :: ys else y :: insertSorted x ys

/-- Ascending insertion sort, modeling `sort.Ints`. -/
def sortInts (l : List Int) : List Int := l.foldr insertSorted []

/-- Model of `sortMapKeys` (src/cronschedule.go:279): the sorted key list of a
map.  Go iterates the map in unspecified order before sorting; since the keys
are unique, the sorted result is the same for any order, so the model collects
keys in list order. -/
def sortMapKeys (m : List (Int × Int)) : List Int :=
  sortInts (m.map Prod.fst)

/-- Model of `buildSlices` (src/cronschedule.go:486). -/
def buildSlices (s : Schedule) : Schedule :=
  { s with
    MinutesSlice := sortMapKeys s.Minutes
    HoursSlice := sortMapKeys s.Hours
    DaysOfMonthSlice := sortMapKeys s.DaysOfMonth
    MonthsSlice := sortMapKeys s.Months
    DaysOfWeekSlice := sortMapKeys s.DaysOfTheWeek }

/-- Model of `EmptySchedule` (src/cronschedule.go:396). -/
def EmptySchedule : Schedule :=
  { Minutes := [], MinutesSlice := [], MinutesStr := []
    Hours := [], HoursSlice := [], HoursStr := []
    DaysOfMonth := [], DaysOfMonthSlice := [], DaysOfMonthStr := []
    Months := [], MonthsSlice := [], MonthsStr := []
    DaysOfTheWeek := [], DaysOfWeekSlice := [], DaysOfTheWeekStr := []
    ScheduleStr := [] }

/-- Model of `ShouldExecute` (src/cronschedule.go:79): minute, hour and month
must be in their sets, and day-of-month OR day-of-week must be in theirs. -/
def ShouldExecute (s : Schedule) (t : GoTime) : Bool :=
  if ¬ mapMem s.Minutes t.minute then false
  else if ¬ mapMem s.Hours t.hour then false
  else if ¬ mapMem s.Months t.month then false
  else if ¬ mapMem s.DaysOfTheWeek (weekdayOf t.year t.month t.day) ∧ ¬ mapMem s.DaysOfMonth t.day then false
  else true

/-- Error cases of `GenerateValueSlice`, one per early return in the source
(src/cronschedule.go:685, 690, 696, 701). -/
inductive GenError where
  | invalidInterval
  | invalidRange
  | startBelowMin
  | endAboveMax
deriving DecidableEq, Repr

/-- Two's-complement wrap-around of Go's 64-bit `int`: Go defines signed
addition to overflow by wrapping, so `value + interval` on
src/cronschedule.go:715 is this function applied to the exact sum. -/
def wrapInt64 (x : Int) : Int :=
  (x + 9223372036854775808) % 18446744073709551616 - 9223372036854775808

/-- Fuel for the `for value <= rangeEnd` loop of `GenerateValueSlice`: one
unit per evaluation of the loop guard.  The wrapped iterates
`value, value+interval, …` return to an already-visited value after at most
2^64 additions, so a run of the source loop that exits evaluates the guard at
most 2^64 + 1 times; exhausting this fuel therefore models a run of the Go
loop that never exits (possible for some argument combinations, since the
wrapped iterates may all stay at most `rangeEnd`). -/
def buildValuesFuel : Nat := 18446744073709551617

/-- The `for value <= rangeEnd` loop of `GenerateValueSlice`
(src/cronschedule.go:712), with Go's wrapping 64-bit addition; `none` models
the loop never exiting (fuel exhausted, see `buildValuesFuel`). -/
def buildValuesAux (rangeEnd interval : Int) : Nat → Int → Option (List Int)
  | 0, _ => none
  | n + 1, value =>
    if value ≤ rangeEnd then
      match buildValuesAux rangeEnd interval n (wrapInt64 (value + interval)) with
      | none => none
      | some values => some (value :: values)
    else some []

/-- The value list built by the loop of `GenerateValueSlice`
(src/cronschedule.go:710); `none` models the loop never exiting. -/
def buildValues (value rangeEnd interval : Int) : Option (List Int) :=
  buildValuesAux rangeEnd interval buildValuesFuel value

/-- Model of `GenerateValueSlice` (src/cronschedule.go:682); `none` models the
call never returning (its loop never exits). -/
def GenerateValueSlice (rangeStart rangeEnd interval fieldMin fieldMax : Int) :
    Option (Except GenError (List Int)) :=
  if interval ≤ 0 then some (.error .invalidInterval)
  else if rangeStart > rangeEnd then some (.error .invalidRange)
  else if rangeStart < fieldMin then some (.error .startBelowMin)
  else if rangeEnd > fieldMax then some (.error .endAboveMax)
  else (buildValues rangeStart rangeEnd interval).map .ok

/-- The six capture groups of `CronFieldValueRegex` (src/cronschedule.go:24),
with the digit captures carried along.  The regex uses `\d*`, so every digit
capture may be empty. -/
inductive TokenClass where
  | star
  | starInterval (b : List Char)
  | valueRange (a b : List Char)
  | rangeInterval (a b c : List Char)
  | startInterval (a b : List Char)
  | single (a : List Char)
deriving DecidableEq, Repr

/-- Model of matching `CronFieldValueRegex` against a whole token: `none` when
no alternative matches (Go's `FindAllStringSubmatch` returns nil), otherwise
the alternative that matches.  Each alternative is anchored on the whole
token, and the digit sets make at most one alternative match, so leftmost-first
alternation picks exactly this classification. -/
def classifyToken (tok : List Char) : Option TokenClass :=
  if tok = ['*'] then some .star
  else
    match tok with
    | '*' :: '/' :: rest => if rest.all isDigitCh then some (.starInterval rest) else none
    | _ =>
      let a := tok.takeWhile isDigitCh
      match tok.dropWhile isDigitCh with
      | [] => some (.single a)
      | '-' :: rest2 =>
        let b := rest2.takeWhile isDigitCh
        match rest2.dropWhile isDigitCh with
        | [] => some (.valueRange a b)
        | '/' :: rest4 => if rest4.all isDigitCh then some (.rangeInterval a b rest4) else none
        | _ => none
      | '/' :: rest2 => if rest2.all isDigitCh then some (.startInterval a rest2) else none
      | _ => none

/-- Errors `ParseFieldValue` reports to its caller: a token matching no regex
alternative, or a wrapped `GenerateValueSlice` failure. -/
inductive FieldError where
  | unsupportedFormat
  | generate (e : GenError)
deriving DecidableEq, Repr

/-- Outcome of `ParseFieldValue`: a value list, an error returned to the
caller, a Go panic, or a call that never returns (a `GenerateValueSlice` loop
that never exits; unreachable from the parser, whose field maxima are at most
59, but the model is total). -/
inductive PFVResult where
  | ok (values : List Int)
  | err (e : FieldError)
  | panicked
  | diverged
deriving DecidableEq, Repr

/-- Lifts a `GenerateValueSlice` result into a `ParseFieldValue` outcome
(the `if err != nil { return nil, fmt.Errorf(...) }` wrapper). -/
def liftGen (r : Option (Except GenError (List Int))) : PFVResult :=
  match r with
  | none => .diverged
  | some (.ok vs) => .ok vs
  | some (.error e) => .err (.generate e)

/-- Model of `ParseFieldValue` (src/cronschedule.go:498).  The Go switch
selects the first non-empty capture group; only group 6 can capture the empty
string (the token `""`), in which case every case fails and the default arm
panics.  Inside a selected arm, `strconv.Atoi` on an empty digit capture
panics. -/
def ParseFieldValue (value : List Char) (mn mx : Int) : PFVResult :=
  match classifyToken value with
  | none => .err .unsupportedFormat
  | some .star => liftGen (GenerateValueSlice mn mx 1 mn mx)
  | some (.starInterval bs) =>
    match goAtoi bs with
    | none => .panicked
    | some interval => liftGen (GenerateValueSlice mn mx interval mn mx)
  | some (.valueRange as bs) =>
    match goAtoi as with
    | none => .panicked
    | some startRange =>
      match goAtoi bs with
      | none => .panicked
      | some endRange => liftGen (GenerateValueSlice startRange endRange 1 mn mx)
  | some (.rangeInterval as bs cs) =>
    match goAtoi cs with
    | none => .panicked
    | some interval =>
      match goAtoi as with
      | none => .panicked
      | some startRange =>
        match goAtoi bs with
        | none => .panicked
        | some endRange => liftGen (GenerateValueSlice startRange endRange interval mn mx)
  | some (.startInterval as bs) =>
    match goAtoi as with
    | none => .panicked
    | some startRange =>
      match goAtoi bs with
      | none => .panicked
      | some interval => liftGen (GenerateValueSlice startRange mx interval mn mx)
  | some (.single ds) =>
    if ds = [] then .panicked
    else
      match goAtoi ds with
      | none => .panicked
      | some singleValue => liftGen (GenerateValueSlice singleValue singleValue 1 mn mx)

/-- Model of `FieldMinMaxByIndex` (src/cronschedule.go:664); `none` is the
error return for an unknown index. -/
def FieldMinMaxByIndex (i : Nat) : Option (Int × Int) :=
  match i with
  | 0 => some (FieldMinuteMin, FieldMinuteMax)
  | 1 => some (FieldHourMin, FieldHourMax)
  | 2 => some (FieldDayOfMonthMin, FieldDayOfMonthMax)
  | 3 => some (FieldMonthMin, FieldMonthMax)
  | 4 => some (FieldDayOfTheWeekMin, FieldDayOfTheWeekMax)
  | _ => none

/-- Parse-time errors of `Parse`, carrying the data the Go error strings
carry (field index and offending token). -/
inductive ParseError where
  | wrongFieldCount (n : Nat)
  | emptyField (i : Nat)
  | badFieldIndex (i : Nat)
  | fieldErr (i : Nat) (token : List Char) (e : FieldError)
deriving DecidableEq, Repr

/-- Outcome of `Parse`: a schedule, an error, a Go panic, or non-termination,
the last two propagated from `ParseFieldValue`. -/
inductive ParseResult where
  | ok (s : Schedule)
  | err (e : ParseError)
  | panicked
  | diverged
deriving DecidableEq, Repr

/-- The inner loop of `Parse` over the comma-separated tokens of one field
(src/cronschedule.go:449): record the token text, parse it, add its values. -/
def processTokens (sched : Schedule) (i : Nat) (mn mx : Int) :
    List (List Char) → ParseResult
  | [] => .ok sched
  | tok :: rest =>
    let sched1 := AddFieldStrByIndex sched tok i
    match ParseFieldValue tok mn mx with
    | .ok vs => processTokens (AddByIndex sched1 vs i) i mn mx rest
    | .err e => .err (.fieldErr i tok e)
    | .panicked => .panicked
    | .diverged => .diverged

/-- The outer loop of `Parse` over the five indexed fields
(src/cronschedule.go:433): reject an empty field, fetch the domain, process
the field's tokens, stop at the first failure. -/
def processFields (sched : Schedule) : List (Nat × List Char) → ParseResult
  | [] => .ok sched
  | (i, field) :: rest =>
    if field = [] then .err (.emptyField i)
    else
      match FieldMinMaxByIndex i with
      | none => .err (.badFieldIndex i)
      | some (mn, mx) =>
        match processTokens sched i mn mx (splitOnChar ',' field) with
        | .ok sched' => processFields sched' rest
        | .err e => .err e
        | .panicked => .panicked
        | .diverged => .diverged

/-- The day-of-month / day-of-week wildcard cleanup of `Parse`
(src/cronschedule.go:470): the both-wildcard branch has an empty (TODO) body;
wildcard day-of-month with explicit day-of-week clears the day-of-month map;
explicit day-of-month with wildcard day-of-week clears the day-of-week map. -/
def resolveDayFields (sched : Schedule) (f2 f4 : List Char) : Schedule :=
  let s1 := if f2 = ['*'] ∧ f4 ≠ ['*'] then { sched with DaysOfMonth := [] } else sched
  if f2 ≠ ['*'] ∧ f4 = ['*'] then { s1 with DaysOfTheWeek := [] } else s1

/-- The field list `Parse` works on: the trimmed expression split on single
spaces (src/cronschedule.go:423). -/
def goFieldsOf (input : String) : List (List Char) :=
  splitOnChar ' ' (trimChars input.data)

/-- Model of `Parse` (src/cronschedule.go:420). -/
def Parse (input : String) : ParseResult :=
  let trimmed := trimChars input.data
  let fields := splitOnChar ' ' trimmed
  if fields.length ≠ 5 then .err (.wrongFieldCount fields.length)
  else
    match processFields { EmptySchedule with ScheduleStr := trimmed } fields.enum with
    | .err e => .err e
    | .panicked => .panicked
    | .diverged => .diverged
    | .ok sched => .ok (buildSlices (resolveDayFields sched (fields.getD 2 []) (fields.getD 4 [])))

/-- The five values `computeStartValues` returns (src/cronschedule.go:110):
the year, the index into `MonthsSlice`, the indices into `HoursSlice` and
`MinutesSlice`, and the day of month to start the enumeration at. -/
structure StartVals where
  year : Int
  monthIdx : Nat
  hourIdx : Nat
  minuteIdx : Nat
  day : Int
deriving DecidableEq, Repr

/-- Result of the hour-scanning loop inside `computeStartValues`
(src/cronschedule.go:140): a return from inside the loop, falling out of the
loop with the hours exhausted, or non-termination.  The inner minute loop
(src/cronschedule.go:150) never increments `minuteIdx`, so it either returns
at the first minute candidate or spins forever; `diverge` models the latter. -/
inductive HourScan where
  | ret (hourIdx minuteIdx : Nat)
  | fellThrough
  | diverge
deriving DecidableEq, Repr

/-- The `for hourIdx < len(s.HoursSlice)` loop of `computeStartValues`
(src/cronschedule.go:140), iterating structurally over the not-yet-visited
suffix of `HoursSlice` while carrying the index for the return values.  The
unincremented-minute-index bug is modeled faithfully: when the hour matches
exactly, the minute loop inspects only `MinutesSlice[0]` and diverges if it is
below the target minute. -/
def csvHoursAux (s : Schedule) (tHour tMinute : Int) : List Int → Nat → HourScan
  | [], _ => .fellThrough
  | hr :: rest, hourIdx =>
    if hr > tHour then .ret hourIdx 0
    else if hr = tHour then
      match s.MinutesSlice with
      | [] => csvHoursAux s tHour tMinute rest (hourIdx + 1)
      | m0 :: _ => if m0 ≥ tMinute then .ret hourIdx 0 else .diverge
    else csvHoursAux s tHour tMinute rest (hourIdx + 1)

/-- The hour-scanning loop of `computeStartValues` started at `hourIdx`. -/
def csvHours (s : Schedule) (tHour tMinute : Int) (hourIdx : Nat) : HourScan :=
  csvHoursAux s tHour tMinute (s.HoursSlice.drop hourIdx) hourIdx

/-- The `for monthIdx < len(s.MonthsSlice)` loop of `computeStartValues`
(src/cronschedule.go:121), iterating structurally over the not-yet-visited
suffix of `MonthsSlice`; `none` models non-termination propagated from the
minute scan. -/
def csvMonthsAux (s : Schedule) (tYear tMonth tDay tHour tMinute : Int) :
    List Int → Nat → Option StartVals
  | [], _ => some ⟨tYear + 1, 0, 0, 0, 1⟩
  | m :: rest, monthIdx =>
    if m > tMonth then some ⟨tYear, monthIdx, 0, 0, 1⟩
    else if m = tMonth then
      let dayOfMonthOK := mapMem s.DaysOfMonth tDay
      let dayOfWeekOK := mapMem s.DaysOfTheWeek (weekdayOf tYear tMonth tDay)
      match (if dayOfWeekOK || dayOfMonthOK then csvHours s tHour tMinute 0 else .fellThrough) with
      | .diverge => none
      | .ret hIdx mIdx => some ⟨tYear, monthIdx, hIdx, mIdx, tDay⟩
      | .fellThrough =>
        if tDay + 1 ≤ daysPerMonth m tYear then some ⟨tYear, monthIdx, 0, 0, tDay + 1⟩
        else csvMonthsAux s tYear tMonth tDay tHour tMinute rest (monthIdx + 1)
    else csvMonthsAux s tYear tMonth tDay tHour tMinute rest (monthIdx + 1)

/-- Model of `computeStartValues` (src/cronschedule.go:110); `none` models the
call never returning. -/
def computeStartValues (s : Schedule) (t : GoTime) : Option StartVals :=
  csvMonthsAux s t.year t.month t.day t.hour t.minute s.MonthsSlice 0

/-- Intermediate state of the `permutation` loop nest of `NextExecutions`:
either the `break permutation` fired with the finished list, or an inner loop
ran to completion and control continues with the accumulated list and count. -/
inductive Step where
  | done (acc : List GoTime)
  | cont (acc : List GoTime) (numFound : Int)
deriving DecidableEq, Repr

/-- The `for minuteIdx < len(s.MinutesSlice)` loop of `NextExecutions`
(src/cronschedule.go:208), iterating structurally over the minute candidates
still to visit: emit one instant per candidate, breaking the whole permutation
loop once `numFound == count`. -/
def minutesLoopAux (count : Int) (year month day hour : Int) :
    List Int → List GoTime → Int → Step
  | [], acc, numFound => .cont acc numFound
  | minute :: rest, acc, numFound =>
    let acc' := acc ++ [⟨year, month, day, hour, minute, 0, 0⟩]
    let numFound' := numFound + 1
    if numFound' = count then .done acc'
    else minutesLoopAux count year month day hour rest acc' numFound'

/-- The minutes loop of `NextExecutions` started at `minuteIdx`. -/
def minutesLoop (s : Schedule) (count : Int) (acc : List GoTime) (numFound : Int)
    (year month day hour : Int) (minuteIdx : Nat) : Step :=
  minutesLoopAux count year month day hour (s.MinutesSlice.drop minuteIdx) acc numFound

/-- The `for hourIdx < len(s.HoursSlice)` loop of `NextExecutions`
(src/cronschedule.go:205): the first hour uses the incoming minute index, every
later hour restarts the minutes at index 0. -/
def hoursLoopAux (s : Schedule) (count : Int) (year month day : Int) :
    List Int → Nat → List GoTime → Int → Step
  | [], _, acc, numFound => .cont acc numFound
  | hour :: rest, minuteIdx, acc, numFound =>
    match minutesLoop s count acc numFound year month day hour minuteIdx with
    | .done acc' => .done acc'
    | .cont acc' numFound' => hoursLoopAux s count year month day rest 0 acc' numFound'

/-- The hours loop of `NextExecutions` started at `hourIdx`. -/
def hoursLoop (s : Schedule) (count : Int) (acc : List GoTime) (numFound : Int)
    (year month day : Int) (hourIdx minuteIdx : Nat) : Step :=
  hoursLoopAux s count year month day (s.HoursSlice.drop hourIdx) minuteIdx acc numFound

/-- The `for day <= daysInMonth` loop of `NextExecutions`
(src/cronschedule.go:198), driven by the exact number of remaining iterations
(`(daysInMonth + 1 - day).toNat`, zero exactly when the guard `day ≤
daysInMonth` fails): a day qualifies when its day-of-month or its weekday is
in the respective set; the first day uses the incoming hour and minute
indices, every later day restarts both at 0. -/
def daysLoopAux (s : Schedule) (count : Int) (year month : Int) :
    Nat → Int → Nat → Nat → List GoTime → Int → Step
  | 0, _, _, _, acc, numFound => .cont acc numFound
  | n + 1, day, hourIdx, minuteIdx, acc, numFound =>
    let dayOfMonthOK := mapMem s.DaysOfMonth day
    let dayOfWeekOK := mapMem s.DaysOfTheWeek (weekdayOf year month day)
    if dayOfMonthOK || dayOfWeekOK then
      match hoursLoop s count acc numFound year month day hourIdx minuteIdx with
      | .done acc' => .done acc'
      | .cont acc' numFound' =>
        daysLoopAux s count year month n (day + 1) 0 0 acc' numFound'
    else daysLoopAux s count year month n (day + 1) 0 0 acc numFound

/-- The days loop of `NextExecutions` for one month of `daysInMonth` days,
started at `day`. -/
def daysLoop (s : Schedule) (count : Int) (acc : List GoTime) (numFound : Int)
    (year month daysInMonth day : Int) (hourIdx minuteIdx : Nat) : Step :=
  daysLoopAux s count year month (daysInMonth + 1 - day).toNat day hourIdx minuteIdx acc numFound

/-- The `for monthIdx < len(s.MonthsSlice)` loop of `NextExecutions`
(src/cronschedule.go:193), iterating structurally over the month candidates
still to visit: each month runs the day loop over its own day count; after a
month, the day restarts at 1 and the indices at 0. -/
def monthsLoopAux (s : Schedule) (count : Int) (year : Int) :
    List Int → Int → Nat → Nat → List GoTime → Int → Step
  | [], _, _, _, acc, numFound => .cont acc numFound
  | month :: rest, day, hourIdx, minuteIdx, acc, numFound =>
    match daysLoop s count acc numFound year month (daysPerMonth month year) day hourIdx minuteIdx with
    | .done acc' => .done acc'
    | .cont acc' numFound' => monthsLoopAux s count year rest 1 0 0 acc' numFound'

/-- The months loop of `NextExecutions` started at `monthIdx`. -/
def monthsLoop (s : Schedule) (count : Int) (acc : List GoTime) (numFound : Int)
    (year : Int) (monthIdx hourIdx minuteIdx : Nat) (day : Int) : Step :=
  monthsLoopAux s count year (s.MonthsSlice.drop monthIdx) day hourIdx minuteIdx acc numFound

/-- The outer `for numFound <= count` loop of `NextExecutions`
(src/cronschedule.go:190), with one unit of fuel per pass: each pass either
fires `break permutation` (returning the list), or exhausts the months of the
current year and retries from month index 0, day 1 of the next year.  `none`
means the fuel ran out before the loop finished — the source loop has no bound
of its own. -/
def permLoop (fuel : Nat) (s : Schedule) (count : Int) (acc : List GoTime) (numFound : Int)
    (year : Int) (monthIdx hourIdx minuteIdx : Nat) (day : Int) : Option (List GoTime) :=
  match fuel with
  | 0 => none
  | fuel' + 1 =>
    if numFound ≤ count then
      match monthsLoop s count acc numFound year monthIdx hourIdx minuteIdx day with
      | .done acc' => some acc'
      | .cont acc' numFound' => permLoop fuel' s count acc' numFound' (year + 1) 0 0 0 1
    else some acc

/-- Model of `NextExecutions` (src/cronschedule.go:177), with `fuel` bounding
the number of outer-loop passes (the source loop is unbounded).  The statement
`t.Add(1 * time.Minute)` on line 181 discards its result (Go times are
immutable values), so only the addition inside the `computeStartValues` call
takes effect; `none` models the call never returning. -/
def NextExecutions (fuel : Nat) (s : Schedule) (t : GoTime) (count : Int) :
    Option (List GoTime) :=
  match computeStartValues s (addOneMinute t) with
  | none => none
  | some sv => permLoop fuel s count [] 0 sv.year sv.monthIdx sv.hourIdx sv.minuteIdx sv.day

/-- Model of `NextExecution` (src/cronschedule.go:254): the first element of
`NextExecutions` with count 1 (the Go code indexes `execTimes[0]`, which
panics on an empty slice; that and non-termination are both `none` here). -/
def NextExecution (fuel : Nat) (s : Schedule) (t : GoTime) : Option GoTime :=
  match NextExecutions fuel s t 1 with
  | some (x :: _) => some x
  | _ => none

/-- Projects the schedule out of a successful `Parse` result (error and panic
outcomes fall back to the empty schedule, matching the partially built value
Go would return alongside the error). -/
def schedOf (r : ParseResult) : Schedule :=
  match r with
  | .ok s => s
  | _ => EmptySchedule

/-- The schedule parsed from the full-wildcard expression. -/
def wildSched : Schedule := schedOf (Parse "* * * * *")

/-- The schedule parsed from the repository test fixture `"0 22 * * 1-5"`. -/
def weekdaySched : Schedule := schedOf (Parse "0 22 * * 1-5")

/-- A schedule whose day/month constraints are jointly unsatisfiable: day 31
of February only, with the day-of-week set cleared by the wildcard rule. -/
def feb31Sched : Schedule := schedOf (Parse "0 0 31 2 *")

/-- The start instant of the repository test fixtures: 2020-07-23 15:28 local
time. -/
def fixtureStart : GoTime := ⟨2020, 7, 23, 15, 28, 0, 0⟩

/-- The five instants the repository's own test fixture expects for
`"0 22 * * 1-5"` from 2020-07-23 15:28 (src/unnamed/part_000:13). -/
def fixtureResults : List GoTime :=
  [⟨2020, 7, 23, 22, 0, 0, 0⟩, ⟨2020, 7, 24, 22, 0, 0, 0⟩, ⟨2020, 7, 27, 22, 0, 0, 0⟩,
   ⟨2020, 7, 28, 22, 0, 0, 0⟩, ⟨2020, 7, 29, 22, 0, 0, 0⟩]

/-- One successful pass of the outer permutation loop: if the months loop
breaks out with the finished list and the loop guard holds, any non-zero fuel
returns that list. -/
theorem permLoop_succ_done {s : Schedule} {count : Int} {acc : List GoTime} {nf : Int}
    {year : Int} {mi hi mi2 : Nat} {day : Int} {L : List GoTime} (k : Nat)
    (h1 : monthsLoop s count acc nf year mi hi mi2 day = .done L) (h2 : nf ≤ count) :
    permLoop (k + 1) s count acc nf year mi hi mi2 day = some L := by
  simp [permLoop, h1, h2]

/-- C8: for the schedule `"0 22 * * 1-5"` and start instant 2020-07-23 15:28
local time, `NextExecutions` with count 5 returns exactly the five instants
2020-07-23 22:00, 07-24 22:00, 07-27 22:00, 07-28 22:00, 07-29 22:00 in that
order (the weekend days 07-25 and 07-26 are skipped), for every fuel bound
that lets the loop run at least one pass (the enumeration finishes inside the
first pass). -/
theorem nextExecutions_weekday_fixture :
    Parse "0 22 * * 1-5" = ParseResult.ok weekdaySched ∧
    ∀ fuel : Nat, 1 ≤ fuel → NextExecutions fuel weekdaySched fixtureStart 5 = some fixtureResults := by
  refine ⟨by decide, fun fuel hfuel => ?_⟩
  obtain ⟨k, rfl⟩ : ∃ k, fuel = k + 1 := ⟨fuel - 1, by omega⟩
  have hcsv : computeStartValues weekdaySched (addOneMinute fixtureStart) =
      some ⟨2020, 6, 0, 0, 23⟩ := by decide
  unfold NextExecutions
  rw [hcsv]
  exact permLoop_succ_done k (by decide) (by decide)

/-- C8 witness: the theorem applied at fuel 1. -/
theorem nextExecutions_weekday_fixture_witness :
    (1 : Nat) ≤ 1 ∧ NextExecutions 1 weekdaySched fixtureStart 5 = some fixtureResults :=
  ⟨le_refl 1, nextExecutions_weekday_fixture.2 1 (le_refl 1)⟩

/-- C1: the universally quantified contract fails on the code because
`NextExecutions` does not terminate for some inputs.  For the full-wildcard
schedule and start instant 2020-07-23 15:28, `computeStartValues` reaches the
exactly-matching hour 15 and then scans minutes without ever incrementing
`minuteIdx` (src/cronschedule.go:150 has no increment), so the first minute
candidate 0 < 29 makes the scan spin forever: no amount of outer-loop fuel
ever produces a result, where the claim demands a list of n instants. -/
theorem nextExecutions_wildcard_hangs :
    Parse "* * * * *" = ParseResult.ok wildSched ∧
    ∀ fuel : Nat, NextExecutions fuel wildSched fixtureStart 1 = none := by
  refine ⟨by decide, fun fuel => ?_⟩
  have h : computeStartValues wildSched (addOneMinute fixtureStart) = none := by decide
  unfold NextExecutions
  rw [h]

/-- The infeasible schedule's day-of-month map holds only day 31. -/
theorem feb31_DaysOfMonth : feb31Sched.DaysOfMonth = [(31, 1)] := by decide

/-- The infeasible schedule's day-of-week map was cleared by the wildcard
rule. -/
theorem feb31_DaysOfTheWeek : feb31Sched.DaysOfTheWeek = [] := by decide

/-- February never has more than 29 days. -/
theorem daysPerMonth_feb (year : Int) :
    daysPerMonth 2 year = if isLeapYear year then 29 else 28 := by
  simp [daysPerMonth]

/-- No day the February day loop visits can satisfy the infeasible schedule:
every visited day stays at most 30, the day-of-month set holds only 31, and
the day-of-week set is empty, so the loop completes without emitting. -/
theorem feb31_daysLoopAux (year : Int) :
    ∀ (n : Nat) (day : Int) (acc : List GoTime) (nf : Int), day + (n : Int) ≤ 31 →
      daysLoopAux feb31Sched 1 year 2 n day 0 0 acc nf = .cont acc nf := by
  intro n
  induction n with
  | zero => intro day acc nf _; rfl
  | succ k ih =>
    intro day acc nf hday
    have hdom : mapMem feb31Sched.DaysOfMonth day = false := by
      rw [feb31_DaysOfMonth]
      simp [mapMem]
      omega
    have hdow : mapMem feb31Sched.DaysOfTheWeek (weekdayOf year 2 day) = false := by
      rw [feb31_DaysOfTheWeek]; rfl
    rw [daysLoopAux, hdom, hdow]
    simp only [Bool.or_self, Bool.false_eq_true, if_false]
    exact ih (day + 1) acc nf (by push_cast at hday ⊢; omega)

/-- A full pass over the infeasible schedule's months (only February) emits
nothing. -/
theorem feb31_monthsLoop (year : Int) (acc : List GoTime) (nf : Int) :
    monthsLoop feb31Sched 1 acc nf year 0 0 0 1 = .cont acc nf := by
  have hms : feb31Sched.MonthsSlice = [2] := by decide
  unfold monthsLoop
  rw [hms]
  show monthsLoopAux feb31Sched 1 year [2] 1 0 0 acc nf = .cont acc nf
  unfold monthsLoopAux daysLoop
  rw [feb31_daysLoopAux year _ 1 acc nf ?_]
  · rfl
  · rw [daysPerMonth_feb]
    by_cases h : isLeapYear year <;> simp [h]
/-- The outer year loop of `NextExecutions` never finds an execution for the
infeasible schedule, for any amount of fuel and any starting year. -/
theorem feb31_permLoop : ∀ (fuel : Nat) (year : Int),
    permLoop fuel feb31Sched 1 [] 0 year 0 0 0 1 = none := by
  intro fuel
  induction fuel with
  | zero => intro year; rfl
  | succ k ih =>
    intro year
    rw [permLoop]
    rw [feb31_monthsLoop year [] 0]
    simp only [show ((0 : Int) ≤ 1) = True by simp, if_true]
    exact ih (year + 1)

/-- C2: the code violates the claim.  The schedule `"0 0 31 2 *"` parses
successfully, but its day/month constraints can never be jointly satisfied
(day 31 never occurs in February and the day-of-week set is empty), and
`NextExecutions` imposes no safety horizon: the year-increment loop runs
forever, returning nothing for any finite number of passes instead of failing
with a NoFeasibleExecution error. -/
theorem nextExecutions_infeasible_unbounded :
    Parse "0 0 31 2 *" = ParseResult.ok feb31Sched ∧
    ∀ fuel : Nat, NextExecutions fuel feb31Sched fixtureStart 1 = none := by
  refine ⟨by decide, fun fuel => ?_⟩
  have hcsv : computeStartValues feb31Sched (addOneMinute fixtureStart) =
      some ⟨2021, 0, 0, 0, 1⟩ := by decide
  unfold NextExecutions
  rw [hcsv]
  exact feb31_permLoop fuel 2021

/-- C5: `ShouldExecute` returns true exactly when the instant's minute, hour
and month are in their sets and its day-of-month or day-of-week is in the
respective set, and the result never depends on the instant's second or
nanosecond components. -/
theorem shouldExecute_characterization :
    ∀ (s : Schedule) (t : GoTime),
      (ShouldExecute s t = true ↔
        (mapMem s.Minutes t.minute = true ∧ mapMem s.Hours t.hour = true ∧
         mapMem s.Months t.month = true ∧
         (mapMem s.DaysOfMonth t.day = true ∨
          mapMem s.DaysOfTheWeek (weekdayOf t.year t.month t.day) = true))) ∧
      ∀ sec ns : Int,
        ShouldExecute s { t with second := sec, nano := ns } = ShouldExecute s t := by
  intro s t
  refine ⟨?_, fun sec ns => rfl⟩
  cases hmin : mapMem s.Minutes t.minute <;>
    cases hhr : mapMem s.Hours t.hour <;>
      cases hmo : mapMem s.Months t.month <;>
        cases hdom : mapMem s.DaysOfMonth t.day <;>
          cases hdow : mapMem s.DaysOfTheWeek (weekdayOf t.year t.month t.day) <;>
            simp [ShouldExecute, hmin, hhr, hmo, hdom, hdow]

/-- Closed form of the generator loop, as the spec words it: the arithmetic
progression from `rangeStart` in steps of `interval`, restricted to values at
most `rangeEnd`. -/
def arithProgression (rangeStart rangeEnd interval : Int) : List Int :=
  (List.range (((rangeEnd - rangeStart) / interval).toNat + 1)).map
    (fun (i : Nat) => rangeStart + interval * (i : Int))

/-- Unfolding one step of the arithmetic progression when at least one more
value fits below the end. -/
theorem arithProgression_head (value rangeEnd interval : Int) (hint : 0 < interval)
    (h : value + interval ≤ rangeEnd) :
    arithProgression value rangeEnd interval =
      value :: arithProgression (value + interval) rangeEnd interval := by
  unfold arithProgression
  have hstep : (rangeEnd - value) / interval = (rangeEnd - (value + interval)) / interval + 1 := by
    have hih := Int.add_mul_ediv_right (rangeEnd - (value + interval)) 1
      (show interval ≠ 0 by omega)
    simp only [one_mul] at hih
    rw [show rangeEnd - value = rangeEnd - (value + interval) + interval by ring, hih]
  have hnn : 0 ≤ (rangeEnd - (value + interval)) / interval :=
    Int.ediv_nonneg (by omega) (by omega)
  have ht : ((rangeEnd - (value + interval)) / interval + 1).toNat
      = ((rangeEnd - (value + interval)) / interval).toNat + 1 := by omega
  rw [hstep, ht, List.range_succ_eq_map, List.map_cons, List.map_map]
  simp only [Nat.cast_zero, mul_zero, add_zero]
  congr 1
  apply List.map_congr_left
  intro i _
  simp only [Function.comp_apply, Nat.cast_succ]
  ring

/-- A wrapped 64-bit sum that is already representable is the exact sum. -/
theorem wrapInt64_eq_of_bounds (x : Int) (h1 : -9223372036854775808 ≤ x)
    (h2 : x ≤ 9223372036854775807) : wrapInt64 x = x := by
  unfold wrapInt64
  rw [Int.emod_eq_of_lt (by omega) (by omega)]
  omega

/-- With a positive step, enough fuel, an int64-representable start at most
the end, and a step small enough that no addition overflows, the generator
loop produces exactly the arithmetic progression. -/
theorem buildValuesAux_eq (rangeEnd interval : Int) (hint : 0 < interval)
    (hover : interval ≤ 9223372036854775807 - rangeEnd) :
    ∀ (n : Nat) (value : Int), -9223372036854775808 ≤ value → value ≤ rangeEnd →
      (rangeEnd + 1 - value).toNat < n →
      buildValuesAux rangeEnd interval n value =
        some (arithProgression value rangeEnd interval) := by
  intro n
  induction n with
  | zero => intro value hlo hv hn; omega
  | succ k ih =>
    intro value hlo hv hn
    rw [buildValuesAux, if_pos hv]
    rw [wrapInt64_eq_of_bounds (value + interval) (by omega) (by omega)]
    by_cases hnext : value + interval ≤ rangeEnd
    · rw [ih (value + interval) (by omega) hnext (by omega)]
      rw [arithProgression_head value rangeEnd interval hint hnext]
    · have hzero : (rangeEnd - value) / interval = 0 :=
        Int.ediv_eq_zero_of_lt (by omega) (by omega)
      have htail : buildValuesAux rangeEnd interval k (value + interval) = some [] := by
        cases k with
        | zero => omega
        | succ m => rw [buildValuesAux, if_neg (by omega)]
      rw [htail]
      unfold arithProgression
      rw [hzero]
      simp [List.range_succ]

/-- C6 counterexample: Go's `value = value + interval` wraps at int64, so
`GenerateValueSlice(5, 59, 9223372036854775805, 0, 59)` passes every
validation and returns [5, -9223372036854775806, -1] — not the arithmetic
progression restricted to values at most 59, which is just [5]. -/
theorem generateValueSlice_overflow_wraps :
    GenerateValueSlice 5 59 9223372036854775805 0 59 =
      some (Except.ok [5, -9223372036854775806, -1]) ∧
    arithProgression 5 59 9223372036854775805 = [5] ∧
    GenerateValueSlice 5 59 9223372036854775805 0 59 ≠
      some (Except.ok (arithProgression 5 59 9223372036854775805)) := by
  refine ⟨rfl, by decide, ?_⟩
  intro h
  rw [show arithProgression 5 59 9223372036854775805 = [5] from by decide] at h
  rw [show GenerateValueSlice 5 59 9223372036854775805 0 59 =
    some (Except.ok [5, -9223372036854775806, -1]) from rfl] at h
  simp at h

/-- C6 amended: `GenerateValueSlice` errors exactly when the interval is
non-positive, the range is inverted, or a bound leaves the field domain; on
int64-representable arguments whose additions cannot overflow (interval at
most int64-max minus rangeEnd) it returns precisely the arithmetic
progression from `rangeStart` in steps of `interval` restricted to values at
most `rangeEnd`, in that order; when an addition overflows, the loop wraps
and emits values outside the progression. -/
theorem generateValueSlice_spec :
    ∀ rangeStart rangeEnd interval fieldMin fieldMax : Int,
      ((∃ e, GenerateValueSlice rangeStart rangeEnd interval fieldMin fieldMax =
          some (.error e)) ↔
        (interval ≤ 0 ∨ rangeStart > rangeEnd ∨ rangeStart < fieldMin ∨ rangeEnd > fieldMax)) ∧
      (¬(interval ≤ 0 ∨ rangeStart > rangeEnd ∨ rangeStart < fieldMin ∨ rangeEnd > fieldMax) →
        -9223372036854775808 ≤ rangeStart →
        interval ≤ 9223372036854775807 - rangeEnd →
        GenerateValueSlice rangeStart rangeEnd interval fieldMin fieldMax =
          some (.ok (arithProgression rangeStart rangeEnd interval))) := by
  intro rs re iv mn mx
  unfold GenerateValueSlice
  split_ifs with h1 h2 h3 h4
  · exact ⟨⟨fun _ => by tauto, fun _ => ⟨_, rfl⟩⟩, fun hc => absurd (Or.inl h1) hc⟩
  · exact ⟨⟨fun _ => by tauto, fun _ => ⟨_, rfl⟩⟩, fun hc => absurd (Or.inr (Or.inl h2)) hc⟩
  · exact ⟨⟨fun _ => by tauto, fun _ => ⟨_, rfl⟩⟩, fun hc => absurd (Or.inr (Or.inr (Or.inl h3))) hc⟩
  · exact ⟨⟨fun _ => by tauto, fun _ => ⟨_, rfl⟩⟩, fun hc => absurd (Or.inr (Or.inr (Or.inr h4))) hc⟩
  · refine ⟨⟨fun ⟨e, he⟩ => ?_, fun hc => by tauto⟩, fun _ hlo hover => ?_⟩
    · cases hb : buildValues rs re iv <;> rw [hb] at he <;> simp at he
    · unfold buildValues
      rw [buildValuesAux_eq re iv (by omega) hover buildValuesFuel rs hlo (by omega) ?_]
      · rfl
      · have hfuel : buildValuesFuel = 18446744073709551617 := rfl
        omega

/-- C6 witness: the generator evaluated on the hour-field range 0-20 with
step 2, where no addition can overflow. -/
theorem generateValueSlice_spec_witness :
    (¬((2 : Int) ≤ 0 ∨ (0 : Int) > 20 ∨ (0 : Int) < 0 ∨ (20 : Int) > 23) ∧
     (-9223372036854775808 : Int) ≤ 0 ∧ (2 : Int) ≤ 9223372036854775807 - 20) ∧
    GenerateValueSlice 0 20 2 0 23 = some (.ok (arithProgression 0 20 2)) :=
  ⟨⟨by decide, by decide, by decide⟩,
   (generateValueSlice_spec 0 20 2 0 23).2 (by decide) (by decide) (by decide)⟩

/-- Domain invariant of a schedule: every key of every field map lies in the
field's fixed [min, max] domain. -/
def schedInv (s : Schedule) : Prop :=
  (∀ p ∈ s.Minutes, FieldMinuteMin ≤ p.1 ∧ p.1 ≤ FieldMinuteMax) ∧
  (∀ p ∈ s.Hours, FieldHourMin ≤ p.1 ∧ p.1 ≤ FieldHourMax) ∧
  (∀ p ∈ s.DaysOfMonth, FieldDayOfMonthMin ≤ p.1 ∧ p.1 ≤ FieldDayOfMonthMax) ∧
  (∀ p ∈ s.Months, FieldMonthMin ≤ p.1 ∧ p.1 ≤ FieldMonthMax) ∧
  (∀ p ∈ s.DaysOfTheWeek, FieldDayOfTheWeekMin ≤ p.1 ∧ p.1 ≤ FieldDayOfTheWeekMax)

instance schedInvDecidable (s : Schedule) : Decidable (schedInv s) := by
  unfold schedInv
  infer_instance

/-- Inserting or bumping an in-domain key keeps every key in the domain. -/
theorem mapIncr_inv {m : List (Int × Int)} {v lo hi : Int}
    (hm : ∀ p ∈ m, lo ≤ p.1 ∧ p.1 ≤ hi) (hv : lo ≤ v ∧ v ≤ hi) :
    ∀ p ∈ mapIncr m v, lo ≤ p.1 ∧ p.1 ≤ hi := by
  intro p hp
  unfold mapIncr at hp
  by_cases h : mapMem m v
  · rw [if_pos h] at hp
    obtain ⟨q, hq, hfq⟩ := List.mem_map.1 hp
    by_cases hqv : q.1 = v
    · rw [if_pos hqv] at hfq
      have : p.1 = q.1 := by rw [← hfq]
      rw [this]; exact hm q hq
    · rw [if_neg hqv] at hfq
      rw [← hfq]; exact hm q hq
  · rw [if_neg h] at hp
    rcases List.mem_append.1 hp with hp | hp
    · exact hm p hp
    · simp at hp; rw [hp]; exact hv

/-- The Add-function loop keeps every key in the domain: out-of-domain inputs
are skipped, in-domain inputs are inserted. -/
theorem addValues_inv {lo hi : Int} : ∀ (vals : List Int) (m : List (Int × Int)),
    (∀ p ∈ m, lo ≤ p.1 ∧ p.1 ≤ hi) →
    ∀ p ∈ addValues m vals lo hi, lo ≤ p.1 ∧ p.1 ≤ hi := by
  intro vals
  induction vals with
  | nil => intro m hm; exact hm
  | cons v rest ih =>
    intro m hm
    rw [addValues]
    by_cases h : v < lo ∨ v > hi
    · rw [if_pos h]; exact ih m hm
    · rw [if_neg h]; exact ih _ (mapIncr_inv hm ⟨by omega, by omega⟩)

/-- Dropping the out-of-domain inputs first changes nothing: the loop skips
them anyway. -/
theorem addValues_filter {lo hi : Int} : ∀ (vals : List Int) (m : List (Int × Int)),
    addValues m (vals.filter (fun v => decide (lo ≤ v ∧ v ≤ hi))) lo hi =
      addValues m vals lo hi := by
  intro vals
  induction vals with
  | nil => intro m; rfl
  | cons v rest ih =>
    intro m
    by_cases h : v < lo ∨ v > hi
    · have hp : (decide (lo ≤ v ∧ v ≤ hi)) = false := by
        simp only [decide_eq_false_iff_not]; omega
      rw [List.filter_cons, hp]
      simp only [Bool.false_eq_true, if_false]
      rw [ih m]
      conv_rhs => rw [addValues]
      rw [if_pos h]
    · have hp : (decide (lo ≤ v ∧ v ≤ hi)) = true := by
        simp only [decide_eq_true_eq]; omega
      rw [List.filter_cons, hp]
      simp only [if_true]
      rw [addValues, if_neg h]
      conv_rhs => rw [addValues]
      rw [if_neg h]
      exact ih (mapIncr m v)

/-- C9: every exported mutator (and `AddByIndex` dispatching to them)
preserves the domain invariant — out-of-domain input values are silently
skipped (filtering them away first gives the same schedule), after the call
every key of every field map still lies within its field's domain, and no
error is reported. -/
theorem add_mutators_preserve_domain :
    ∀ (s : Schedule), schedInv s → ∀ (values : List Int) (index : Nat),
      (schedInv (AddMinutes s values) ∧ schedInv (AddHours s values) ∧
       schedInv (AddDaysOfMonth s values) ∧ schedInv (AddMonths s values) ∧
       schedInv (AddDaysOfTheWeek s values) ∧ schedInv (AddByIndex s values index)) ∧
      (AddMinutes s (values.filter (fun v => decide (FieldMinuteMin ≤ v ∧ v ≤ FieldMinuteMax))) =
         AddMinutes s values ∧
       AddHours s (values.filter (fun v => decide (FieldHourMin ≤ v ∧ v ≤ FieldHourMax))) =
         AddHours s values ∧
       AddDaysOfMonth s (values.filter (fun v => decide (FieldDayOfMonthMin ≤ v ∧ v ≤ FieldDayOfMonthMax))) =
         AddDaysOfMonth s values ∧
       AddMonths s (values.filter (fun v => decide (FieldMonthMin ≤ v ∧ v ≤ FieldMonthMax))) =
         AddMonths s values ∧
       AddDaysOfTheWeek s (values.filter (fun v => decide (FieldDayOfTheWeekMin ≤ v ∧ v ≤ FieldDayOfTheWeekMax))) =
         AddDaysOfTheWeek s values) := by
  intro s hs values index
  obtain ⟨h1, h2, h3, h4, h5⟩ := hs
  have hm : schedInv (AddMinutes s values) := ⟨addValues_inv values s.Minutes h1, h2, h3, h4, h5⟩
  have hh : schedInv (AddHours s values) := ⟨h1, addValues_inv values s.Hours h2, h3, h4, h5⟩
  have hd : schedInv (AddDaysOfMonth s values) :=
    ⟨h1, h2, addValues_inv values s.DaysOfMonth h3, h4, h5⟩
  have hmo : schedInv (AddMonths s values) := ⟨h1, h2, h3, addValues_inv values s.Months h4, h5⟩
  have hw : schedInv (AddDaysOfTheWeek s values) :=
    ⟨h1, h2, h3, h4, addValues_inv values s.DaysOfTheWeek h5⟩
  refine ⟨⟨hm, hh, hd, hmo, hw, ?_⟩, ?_, ?_, ?_, ?_, ?_⟩
  · match index with
    | 0 => exact hm
    | 1 => exact hh
    | 2 => exact hd
    | 3 => exact hmo
    | 4 => exact hw
    | (n + 5) => exact ⟨h1, h2, h3, h4, h5⟩
  · unfold AddMinutes; rw [addValues_filter]
  · unfold AddHours; rw [addValues_filter]
  · unfold AddDaysOfMonth; rw [addValues_filter]
  · unfold AddMonths; rw [addValues_filter]
  · unfold AddDaysOfTheWeek; rw [addValues_filter]

/-- C9 witness: the invariant holds for the empty schedule and is preserved
when adding the mixed in/out-of-domain minute list [5, 100]. -/
theorem add_mutators_preserve_domain_witness :
    schedInv EmptySchedule ∧
    schedInv (AddMinutes EmptySchedule [5, 100]) ∧
    schedInv (AddByIndex EmptySchedule [5, 100] 4) :=
  ⟨by decide,
   ((add_mutators_preserve_domain EmptySchedule (by decide) [5, 100] 4).1).1,
   (((((add_mutators_preserve_domain EmptySchedule (by decide) [5, 100] 4).1).2).2).2).2.2⟩

/-- The accumulated instant list carried by a loop state. -/
def stepAcc : Step → List GoTime
  | .done acc => acc
  | .cont acc _ => acc

/-- The minutes loop only appends instants built with second and nanosecond
zero. -/
theorem minutesLoopAux_aligned (count year month day hour : Int) :
    ∀ (l : List Int) (acc : List GoTime) (nf : Int),
      (∀ x ∈ acc, x.second = 0 ∧ x.nano = 0) →
      ∀ x ∈ stepAcc (minutesLoopAux count year month day hour l acc nf),
        x.second = 0 ∧ x.nano = 0 := by
  intro l
  induction l with
  | nil => intro acc nf h; exact h
  | cons minute rest ih =>
    intro acc nf h
    have h' : ∀ x ∈ acc ++ [(⟨year, month, day, hour, minute, 0, 0⟩ : GoTime)],
        x.second = 0 ∧ x.nano = 0 := by
      intro x hx
      rcases List.mem_append.1 hx with hx | hx
      · exact h x hx
      · simp at hx; rw [hx]; exact ⟨rfl, rfl⟩
    simp only [minutesLoopAux]
    by_cases hc : nf + 1 = count
    · rw [if_pos hc]; exact h'
    · rw [if_neg hc]; exact ih _ _ h'

/-- The hours loop preserves minute alignment of the accumulated list. -/
theorem hoursLoopAux_aligned (s : Schedule) (count year month day : Int) :
    ∀ (l : List Int) (minuteIdx : Nat) (acc : List GoTime) (nf : Int),
      (∀ x ∈ acc, x.second = 0 ∧ x.nano = 0) →
      ∀ x ∈ stepAcc (hoursLoopAux s count year month day l minuteIdx acc nf),
        x.second = 0 ∧ x.nano = 0 := by
  intro l
  induction l with
  | nil => intro minuteIdx acc nf h; exact h
  | cons hour rest ih =>
    intro minuteIdx acc nf h
    rw [hoursLoopAux]
    have hmin := minutesLoopAux_aligned count year month day hour
      (s.MinutesSlice.drop minuteIdx) acc nf h
    cases hm : minutesLoop s count acc nf year month day hour minuteIdx with
    | done acc' =>
      unfold minutesLoop at hm
      rw [hm] at hmin
      exact hmin
    | cont acc' nf' =>
      unfold minutesLoop at hm
      rw [hm] at hmin
      exact ih 0 acc' nf' hmin

/-- The days loop preserves minute alignment of the accumulated list. -/
theorem daysLoopAux_aligned (s : Schedule) (count year month : Int) :
    ∀ (n : Nat) (day : Int) (hourIdx minuteIdx : Nat) (acc : List GoTime) (nf : Int),
      (∀ x ∈ acc, x.second = 0 ∧ x.nano = 0) →
      ∀ x ∈ stepAcc (daysLoopAux s count year month n day hourIdx minuteIdx acc nf),
        x.second = 0 ∧ x.nano = 0 := by
  intro n
  induction n with
  | zero => intro day hourIdx minuteIdx acc nf h; exact h
  | succ k ih =>
    intro day hourIdx minuteIdx acc nf h
    rw [daysLoopAux]
    by_cases hday : (mapMem s.DaysOfMonth day || mapMem s.DaysOfTheWeek (weekdayOf year month day)) = true
    · rw [if_pos hday]
      have hhr := hoursLoopAux_aligned s count year month day
        (s.HoursSlice.drop hourIdx) minuteIdx acc nf h
      cases hm : hoursLoop s count acc nf year month day hourIdx minuteIdx with
      | done acc' =>
        unfold hoursLoop at hm
        rw [hm] at hhr
        exact hhr
      | cont acc' nf' =>
        unfold hoursLoop at hm
        rw [hm] at hhr
        exact ih (day + 1) 0 0 acc' nf' hhr
    · rw [if_neg hday]
      exact ih (day + 1) 0 0 acc nf h

/-- The months loop preserves minute alignment of the accumulated list. -/
theorem monthsLoopAux_aligned (s : Schedule) (count year : Int) :
    ∀ (l : List Int) (day : Int) (hourIdx minuteIdx : Nat) (acc : List GoTime) (nf : Int),
      (∀ x ∈ acc, x.second = 0 ∧ x.nano = 0) →
      ∀ x ∈ stepAcc (monthsLoopAux s count year l day hourIdx minuteIdx acc nf),
        x.second = 0 ∧ x.nano = 0 := by
  intro l
  induction l with
  | nil => intro day hourIdx minuteIdx acc nf h; exact h
  | cons month rest ih =>
    intro day hourIdx minuteIdx acc nf h
    rw [monthsLoopAux]
    have hdl := daysLoopAux_aligned s count year month
      (daysPerMonth month year + 1 - day).toNat day hourIdx minuteIdx acc nf h
    cases hm : daysLoop s count acc nf year month (daysPerMonth month year) day hourIdx minuteIdx with
    | done acc' =>
      unfold daysLoop at hm
      rw [hm] at hdl
      exact hdl
    | cont acc' nf' =>
      unfold daysLoop at hm
      rw [hm] at hdl
      exact ih 1 0 0 acc' nf' hdl

/-- The outer permutation loop preserves minute alignment: whatever list it
returns consists of aligned instants when the incoming accumulator does. -/
theorem permLoop_aligned :
    ∀ (fuel : Nat) (s : Schedule) (count : Int) (acc : List GoTime) (nf : Int)
      (year : Int) (mi hi mi2 : Nat) (day : Int) (l : List GoTime),
      (∀ x ∈ acc, x.second = 0 ∧ x.nano = 0) →
      permLoop fuel s count acc nf year mi hi mi2 day = some l →
      ∀ x ∈ l, x.second = 0 ∧ x.nano = 0 := by
  intro fuel
  induction fuel with
  | zero => intro s count acc nf year mi hi mi2 day l _ h; exact absurd h (by simp [permLoop])
  | succ k ih =>
    intro s count acc nf year mi hi mi2 day l hacc h
    rw [permLoop] at h
    by_cases hg : nf ≤ count
    · rw [if_pos hg] at h
      have hml := monthsLoopAux_aligned s count year (s.MonthsSlice.drop mi) day hi mi2 acc nf hacc
      cases hm : monthsLoop s count acc nf year mi hi mi2 day with
      | done acc' =>
        rw [hm] at h
        simp only [Option.some.injEq] at h
        unfold monthsLoop at hm
        rw [hm] at hml
        rw [← h]
        exact hml
      | cont acc' nf' =>
        rw [hm] at h
        unfold monthsLoop at hm
        rw [hm] at hml
        exact ih s count acc' nf' (year + 1) 0 0 0 1 l hml h
    · rw [if_neg hg] at h
      simp only [Option.some.injEq] at h
      rw [← h]
      exact hacc

/-- C10: every instant returned by `NextExecutions` (and hence by
`NextExecution`) is minute-aligned — its second and nanosecond components are
exactly zero — for every schedule, start instant, count, and fuel bound,
regardless of the start instant's second and nanosecond components. -/
theorem nextExecutions_minute_aligned :
    (∀ (fuel : Nat) (s : Schedule) (t : GoTime) (count : Int) (l : List GoTime),
        NextExecutions fuel s t count = some l → ∀ x ∈ l, x.second = 0 ∧ x.nano = 0) ∧
    (∀ (fuel : Nat) (s : Schedule) (t : GoTime) (x : GoTime),
        NextExecution fuel s t = some x → x.second = 0 ∧ x.nano = 0) := by
  have hmain : ∀ (fuel : Nat) (s : Schedule) (t : GoTime) (count : Int) (l : List GoTime),
      NextExecutions fuel s t count = some l → ∀ x ∈ l, x.second = 0 ∧ x.nano = 0 := by
    intro fuel s t count l h
    unfold NextExecutions at h
    cases hcsv : computeStartValues s (addOneMinute t) with
    | none => rw [hcsv] at h; exact absurd h (by simp)
    | some sv =>
      rw [hcsv] at h
      exact permLoop_aligned fuel s count [] 0 sv.year sv.monthIdx sv.hourIdx sv.minuteIdx sv.day
        l (by simp) h
  refine ⟨hmain, fun fuel s t x h => ?_⟩
  unfold NextExecution at h
  cases hne : NextExecutions fuel s t 1 with
  | none => rw [hne] at h; exact absurd h (by simp)
  | some l =>
    rw [hne] at h
    cases l with
    | nil => exact absurd h (by simp)
    | cons y ys =>
      simp only [Option.some.injEq] at h
      rw [← h]
      exact hmain fuel s t 1 (y :: ys) hne y (by simp)

/-- C10 witness: the theorem applied to the weekday fixture run; its first
returned instant has zero second and nanosecond. -/
theorem nextExecutions_minute_aligned_witness :
    NextExecutions 1 weekdaySched fixtureStart 5 = some fixtureResults ∧
    ((⟨2020, 7, 23, 22, 0, 0, 0⟩ : GoTime).second = 0 ∧
     (⟨2020, 7, 23, 22, 0, 0, 0⟩ : GoTime).nano = 0) :=
  ⟨by decide,
   nextExecutions_minute_aligned.1 1 weekdaySched fixtureStart 5 fixtureResults (by decide)
     ⟨2020, 7, 23, 22, 0, 0, 0⟩ (by decide)⟩

/-- A wrapped generator result is never the unsupported-format error. -/
theorem liftGen_ne_unsupported (r : Option (Except GenError (List Int))) :
    liftGen r ≠ .err .unsupportedFormat := by
  cases r with
  | none => simp [liftGen]
  | some v => cases v <;> simp [liftGen]

/-- C3 counterexample: the empty token matches group 6 of the regex (its digit
parts are `\d*`), so `ParseFieldValue` panics in the default switch arm
instead of returning the UnsupportedFieldFormat error the claim requires. -/
theorem parseFieldValue_empty_token_panics :
    ParseFieldValue "".data 0 59 = PFVResult.panicked ∧
    ParseFieldValue "".data 0 59 ≠ PFVResult.err FieldError.unsupportedFormat := by decide

/-- C3 amended: `ParseFieldValue` returns the UnsupportedFieldFormat error
exactly for the tokens the regex rejects outright; the degenerate tokens
`""`, `"-"`, `"/"`, `"*/"` and `"5-"` are accepted by the regex (whose digit
parts are `\d*`, hence possibly empty) and make the function panic instead of
returning any error. -/
theorem parseFieldValue_unsupported_iff_no_match :
    (∀ (value : List Char) (mn mx : Int),
        ParseFieldValue value mn mx = .err .unsupportedFormat ↔ classifyToken value = none) ∧
    ParseFieldValue "".data 0 59 = PFVResult.panicked ∧
    ParseFieldValue "-".data 1 31 = PFVResult.panicked ∧
    ParseFieldValue "/".data 0 59 = PFVResult.panicked ∧
    ParseFieldValue "*/".data 0 59 = PFVResult.panicked ∧
    ParseFieldValue "5-".data 0 59 = PFVResult.panicked := by
  refine ⟨fun value mn mx => ⟨fun h => ?_, fun h => by unfold ParseFieldValue; rw [h]⟩,
    by decide, by decide, by decide, by decide, by decide⟩
  cases hcl : classifyToken value with
  | none => rfl
  | some tc =>
    exfalso
    simp only [ParseFieldValue, hcl] at h
    cases tc with
    | star => exact liftGen_ne_unsupported _ h
    | starInterval bs =>
      cases ha : goAtoi bs <;> simp only [ha] at h
      · exact PFVResult.noConfusion h
      · exact liftGen_ne_unsupported _ h
    | valueRange as bs =>
      cases ha : goAtoi as <;> simp only [ha] at h
      · exact PFVResult.noConfusion h
      · cases hb : goAtoi bs <;> simp only [hb] at h
        · exact PFVResult.noConfusion h
        · exact liftGen_ne_unsupported _ h
    | rangeInterval as bs cs =>
      cases hc : goAtoi cs <;> simp only [hc] at h
      · exact PFVResult.noConfusion h
      · cases ha : goAtoi as <;> simp only [ha] at h
        · exact PFVResult.noConfusion h
        · cases hb : goAtoi bs <;> simp only [hb] at h
          · exact PFVResult.noConfusion h
          · exact liftGen_ne_unsupported _ h
    | startInterval as bs =>
      cases ha : goAtoi as <;> simp only [ha] at h
      · exact PFVResult.noConfusion h
      · cases hb : goAtoi bs <;> simp only [hb] at h
        · exact PFVResult.noConfusion h
        · exact liftGen_ne_unsupported _ h
    | single ds =>
      have h' : (if ds = [] then PFVResult.panicked
          else match goAtoi ds with
            | none => PFVResult.panicked
            | some singleValue => liftGen (GenerateValueSlice singleValue singleValue 1 mn mx)) =
          PFVResult.err FieldError.unsupportedFormat := h
      by_cases hd : ds = []
      · rw [if_pos hd] at h'
        exact PFVResult.noConfusion h'
      · rw [if_neg hd] at h'
        cases ha : goAtoi ds <;> simp only [ha] at h'
        · exact PFVResult.noConfusion h'
        · exact liftGen_ne_unsupported _ h'

/-- Whether `ParseFieldValue` succeeded. -/
def isOkPFV : PFVResult → Bool
  | .ok _ => true
  | _ => false

/-- Whether field `i` with the given text passes its step of the `Parse`
loop: it is non-empty, its index is known, and every comma token parses. -/
def fieldStepOk (i : Nat) (field : List Char) : Bool :=
  decide (field ≠ []) &&
    (match FieldMinMaxByIndex i with
     | none => false
     | some (mn, mx) =>
       (splitOnChar ',' field).all (fun tok => isOkPFV (ParseFieldValue tok mn mx)))

/-- When every comma token of a field parses, the token loop succeeds (from
any incoming schedule). -/
theorem processTokens_ok (i : Nat) (mn mx : Int) :
    ∀ (toks : List (List Char)) (sched : Schedule),
      (toks.all (fun tok => isOkPFV (ParseFieldValue tok mn mx))) = true →
      ∃ sched', processTokens sched i mn mx toks = .ok sched' := by
  intro toks
  induction toks with
  | nil => intro sched _; exact ⟨sched, rfl⟩
  | cons tok rest ih =>
    intro sched hall
    simp only [List.all_cons, Bool.and_eq_true] at hall
    obtain ⟨h1, h2⟩ := hall
    cases hp : ParseFieldValue tok mn mx with
    | ok vs =>
      have hstep : processTokens sched i mn mx (tok :: rest) =
          processTokens (AddByIndex (AddFieldStrByIndex sched tok i) vs i) i mn mx rest := by
        simp only [processTokens, hp]
      rw [hstep]
      exact ih _ h2
    | err e => rw [hp] at h1; exact absurd h1 (by simp [isOkPFV])
    | panicked => rw [hp] at h1; exact absurd h1 (by simp [isOkPFV])
    | diverged => rw [hp] at h1; exact absurd h1 (by simp [isOkPFV])

/-- When every field before position `i` passes its step and field `i` is
empty, the field loop reports the empty-field error for position `i`. -/
theorem processFields_empty_field (i : Nat) :
    ∀ (pre : List (Nat × List Char)) (sched : Schedule) (rest : List (Nat × List Char)),
      (∀ p ∈ pre, fieldStepOk p.1 p.2 = true) →
      processFields sched (pre ++ (i, []) :: rest) = .err (.emptyField i) := by
  intro pre
  induction pre with
  | nil =>
    intro sched rest _
    rw [List.nil_append]
    simp [processFields]
  | cons p pre' ih =>
    intro sched rest hall
    obtain ⟨j, f⟩ := p
    have hok : fieldStepOk j f = true := hall (j, f) (by simp)
    unfold fieldStepOk at hok
    simp only [Bool.and_eq_true, decide_eq_true_eq] at hok
    obtain ⟨hne, hmatch⟩ := hok
    cases hmm : FieldMinMaxByIndex j with
    | none => rw [hmm] at hmatch; exact absurd hmatch (by simp)
    | some mnmx =>
      obtain ⟨mn, mx⟩ := mnmx
      rw [hmm] at hmatch
      obtain ⟨sched', hs⟩ := processTokens_ok j mn mx (splitOnChar ',' f) sched hmatch
      rw [List.cons_append]
      simp only [processFields, if_neg hne, hmm, hs]
      exact ih sched' rest (fun q hq => hall q (by simp [hq]))

/-- A list of length five is a five-element literal. -/
theorem list_length_five {α : Type} :
    ∀ (l : List α), l.length = 5 → ∃ a b c d e, l = [a, b, c, d, e] := by
  intro l h
  rcases l with _ | ⟨a, _ | ⟨b, _ | ⟨c, _ | ⟨d, _ | ⟨e, _ | ⟨f, l⟩⟩⟩⟩⟩⟩ <;> simp_all

/-- `Parse` on an input whose trimmed text splits into exactly five fields
runs the field loop and then the day-field resolution. -/
theorem Parse_eq_of_fields {input : String} {fs : List (List Char)}
    (hf : goFieldsOf input = fs) (hlen : fs.length = 5) :
    Parse input =
      (match processFields { EmptySchedule with ScheduleStr := trimChars input.data } fs.enum with
       | .err e => .err e
       | .panicked => .panicked
       | .diverged => .diverged
       | .ok sched =>
         .ok (buildSlices (resolveDayFields sched (fs.getD 2 []) (fs.getD 4 [])))) := by
  unfold goFieldsOf at hf
  simp only [Parse]
  rw [hf, if_neg (by rw [hlen]; exact fun h => h rfl)]

/-- The enumeration of a five-element list. -/
theorem enum_five {α : Type} (a b c d e : α) :
    List.enum [a, b, c, d, e] = [(0, a), (1, b), (2, c), (3, d), (4, e)] := rfl

/-- C7 counterexample: in `"5-1  * * *"` field position 1 is empty (doubled
space), yet `Parse` reports the minute field's range error, not an
empty-field error — fields are validated left to right and the claim's
"fails with an empty-field error when any position is empty" does not hold. -/
theorem parse_empty_field_shadowed_by_earlier_error :
    Parse "5-1  * * *" =
      ParseResult.err (.fieldErr 0 ['5', '-', '1'] (.generate .invalidRange)) ∧
    Parse "5-1  * * *" ≠ ParseResult.err (.emptyField 1) := by decide

/-- C7 amended: `Parse` fails with the wrong-field-count error for every input
whose trimmed text does not split on single spaces into exactly 5 fields; and
it fails with the empty-field error for position i when that position is empty
and every earlier field position passes its validation step (fields are
checked left to right, so an earlier field's parse error or panic takes
precedence over a later empty field). -/
theorem parse_field_count_and_empty_field :
    ∀ (input : String),
      ((goFieldsOf input).length ≠ 5 →
        Parse input = .err (.wrongFieldCount (goFieldsOf input).length)) ∧
      (∀ i : Nat, i < 5 → (goFieldsOf input).length = 5 →
        (goFieldsOf input).getD i [] = [] →
        (∀ j : Nat, j < i → fieldStepOk j ((goFieldsOf input).getD j []) = true) →
        Parse input = .err (.emptyField i)) := by
  intro input
  constructor
  · intro h
    unfold goFieldsOf at h
    simp only [Parse]
    rw [if_pos h]
    unfold goFieldsOf
    rfl
  · intro i hi hlen hempty hprev
    obtain ⟨f0, f1, f2, f3, f4, hf⟩ := list_length_five _ hlen
    rw [Parse_eq_of_fields hf (by rw [← hf]; exact hlen)]
    rw [hf] at hempty hprev
    rw [enum_five]
    interval_cases i
    · rw [show f0 = [] from hempty] at hprev ⊢
      rw [show [((0 : Nat), ([] : List Char)), (1, f1), (2, f2), (3, f3), (4, f4)] =
        [] ++ ((0 : Nat), ([] : List Char)) :: [(1, f1), (2, f2), (3, f3), (4, f4)] from rfl]
      rw [processFields_empty_field 0 [] _ _ (by intro p hp; simp at hp)]
    · rw [show f1 = [] from hempty] at hprev ⊢
      rw [show [((0 : Nat), f0), (1, ([] : List Char)), (2, f2), (3, f3), (4, f4)] =
        [((0 : Nat), f0)] ++ ((1 : Nat), ([] : List Char)) :: [(2, f2), (3, f3), (4, f4)] from rfl]
      rw [processFields_empty_field 1 [(0, f0)] _ _ ?_]
      intro p hp
      simp only [List.mem_singleton] at hp
      rw [hp]
      exact hprev 0 (by omega)
    · rw [show f2 = [] from hempty] at hprev ⊢
      rw [show [((0 : Nat), f0), (1, f1), (2, ([] : List Char)), (3, f3), (4, f4)] =
        [((0 : Nat), f0), (1, f1)] ++ ((2 : Nat), ([] : List Char)) :: [(3, f3), (4, f4)] from rfl]
      rw [processFields_empty_field 2 [(0, f0), (1, f1)] _ _ ?_]
      intro p hp
      rcases List.mem_cons.1 hp with hp | hp
      · rw [hp]; exact hprev 0 (by omega)
      · simp only [List.mem_singleton] at hp
        rw [hp]
        exact hprev 1 (by omega)
    · rw [show f3 = [] from hempty] at hprev ⊢
      rw [show [((0 : Nat), f0), (1, f1), (2, f2), (3, ([] : List Char)), (4, f4)] =
        [((0 : Nat), f0), (1, f1), (2, f2)] ++ ((3 : Nat), ([] : List Char)) :: [(4, f4)] from rfl]
      rw [processFields_empty_field 3 [(0, f0), (1, f1), (2, f2)] _ _ ?_]
      intro p hp
      rcases List.mem_cons.1 hp with hp | hp
      · rw [hp]; exact hprev 0 (by omega)
      rcases List.mem_cons.1 hp with hp | hp
      · rw [hp]; exact hprev 1 (by omega)
      · simp only [List.mem_singleton] at hp
        rw [hp]
        exact hprev 2 (by omega)
    · rw [show f4 = [] from hempty] at hprev ⊢
      rw [show [((0 : Nat), f0), (1, f1), (2, f2), (3, f3), (4, ([] : List Char))] =
        [((0 : Nat), f0), (1, f1), (2, f2), (3, f3)] ++ ((4 : Nat), ([] : List Char)) :: [] from rfl]
      rw [processFields_empty_field 4 [(0, f0), (1, f1), (2, f2), (3, f3)] _ _ ?_]
      intro p hp
      rcases List.mem_cons.1 hp with hp | hp
      · rw [hp]; exact hprev 0 (by omega)
      rcases List.mem_cons.1 hp with hp | hp
      · rw [hp]; exact hprev 1 (by omega)
      rcases List.mem_cons.1 hp with hp | hp
      · rw [hp]; exact hprev 2 (by omega)
      · simp only [List.mem_singleton] at hp
        rw [hp]
        exact hprev 3 (by omega)

/-- C7 witness: the theorem applied to a four-field input and to an input with
a valid first field followed by a doubled space. -/
theorem parse_field_count_and_empty_field_witness :
    Parse "* * * *" = ParseResult.err (.wrongFieldCount 4) ∧
    Parse "*  * * *" = ParseResult.err (.emptyField 1) := by
  constructor
  · have h := (parse_field_count_and_empty_field "* * * *").1 (by decide)
    rw [show (goFieldsOf "* * * *").length = 4 from by decide] at h
    exact h
  · refine (parse_field_count_and_empty_field "*  * * *").2 1 (by omega) (by decide) (by decide) ?_
    intro j hj
    have hj0 : j = 0 := by omega
    rw [hj0]
    decide

/-- `AddFieldStrByIndex` never touches the day-of-month map. -/
theorem AddFieldStrByIndex_DaysOfMonth (s : Schedule) (tok : List Char) (i : Nat) :
    (AddFieldStrByIndex s tok i).DaysOfMonth = s.DaysOfMonth := by
  rcases i with _ | _ | _ | _ | _ | i <;> rfl

/-- `AddFieldStrByIndex` never touches the day-of-week map. -/
theorem AddFieldStrByIndex_DaysOfTheWeek (s : Schedule) (tok : List Char) (i : Nat) :
    (AddFieldStrByIndex s tok i).DaysOfTheWeek = s.DaysOfTheWeek := by
  rcases i with _ | _ | _ | _ | _ | i <;> rfl

/-- `AddByIndex` touches the day-of-month map only at index 2. -/
theorem AddByIndex_DaysOfMonth_ne (s : Schedule) (vs : List Int) (i : Nat) (h : i ≠ 2) :
    (AddByIndex s vs i).DaysOfMonth = s.DaysOfMonth := by
  rcases i with _ | _ | _ | _ | _ | i
  · rfl
  · rfl
  · exact absurd rfl h
  · rfl
  · rfl
  · rfl

/-- `AddByIndex` touches the day-of-week map only at index 4. -/
theorem AddByIndex_DaysOfTheWeek_ne (s : Schedule) (vs : List Int) (i : Nat) (h : i ≠ 4) :
    (AddByIndex s vs i).DaysOfTheWeek = s.DaysOfTheWeek := by
  rcases i with _ | _ | _ | _ | _ | i
  · rfl
  · rfl
  · rfl
  · rfl
  · exact absurd rfl h
  · rfl

/-- Parsing a field other than day-of-month leaves the day-of-month map
unchanged. -/
theorem processTokens_DaysOfMonth_ne (i : Nat) (hi : i ≠ 2) (mn mx : Int) :
    ∀ (toks : List (List Char)) (sched sched' : Schedule),
      processTokens sched i mn mx toks = .ok sched' →
      sched'.DaysOfMonth = sched.DaysOfMonth := by
  intro toks
  induction toks with
  | nil =>
    intro sched sched' h
    simp only [processTokens, ParseResult.ok.injEq] at h
    rw [← h]
  | cons tok rest ih =>
    intro sched sched' h
    cases hp : ParseFieldValue tok mn mx with
    | ok vs =>
      have hstep : processTokens sched i mn mx (tok :: rest) =
          processTokens (AddByIndex (AddFieldStrByIndex sched tok i) vs i) i mn mx rest := by
        simp only [processTokens, hp]
      rw [hstep] at h
      rw [ih _ _ h, AddByIndex_DaysOfMonth_ne _ _ _ hi, AddFieldStrByIndex_DaysOfMonth]
    | err e =>
      simp only [processTokens, hp] at h
      exact ParseResult.noConfusion h
    | panicked =>
      simp only [processTokens, hp] at h
      exact ParseResult.noConfusion h
    | diverged =>
      simp only [processTokens, hp] at h
      exact ParseResult.noConfusion h

/-- Parsing a field other than day-of-week leaves the day-of-week map
unchanged. -/
theorem processTokens_DaysOfTheWeek_ne (i : Nat) (hi : i ≠ 4) (mn mx : Int) :
    ∀ (toks : List (List Char)) (sched sched' : Schedule),
      processTokens sched i mn mx toks = .ok sched' →
      sched'.DaysOfTheWeek = sched.DaysOfTheWeek := by
  intro toks
  induction toks with
  | nil =>
    intro sched sched' h
    simp only [processTokens, ParseResult.ok.injEq] at h
    rw [← h]
  | cons tok rest ih =>
    intro sched sched' h
    cases hp : ParseFieldValue tok mn mx with
    | ok vs =>
      have hstep : processTokens sched i mn mx (tok :: rest) =
          processTokens (AddByIndex (AddFieldStrByIndex sched tok i) vs i) i mn mx rest := by
        simp only [processTokens, hp]
      rw [hstep] at h
      rw [ih _ _ h, AddByIndex_DaysOfTheWeek_ne _ _ _ hi, AddFieldStrByIndex_DaysOfTheWeek]
    | err e =>
      simp only [processTokens, hp] at h
      exact ParseResult.noConfusion h
    | panicked =>
      simp only [processTokens, hp] at h
      exact ParseResult.noConfusion h
    | diverged =>
      simp only [processTokens, hp] at h
      exact ParseResult.noConfusion h

/-- Inversion of one successful step of the field loop. -/
theorem processFields_cons_ok {sched : Schedule} {i : Nat} {field : List Char}
    {rest : List (Nat × List Char)} {sched' : Schedule} (mn mx : Int)
    (h : processFields sched ((i, field) :: rest) = .ok sched')
    (hmm : FieldMinMaxByIndex i = some (mn, mx)) :
    field ≠ [] ∧ ∃ sched1,
      processTokens sched i mn mx (splitOnChar ',' field) = .ok sched1 ∧
      processFields sched1 rest = .ok sched' := by
  by_cases hne : field = []
  · simp only [processFields, if_pos hne] at h
    exact ParseResult.noConfusion h
  · simp only [processFields, if_neg hne, hmm] at h
    cases hp : processTokens sched i mn mx (splitOnChar ',' field) with
    | ok sched1 => rw [hp] at h; exact ⟨hne, sched1, rfl, h⟩
    | err e => rw [hp] at h; exact absurd h (by simp)
    | panicked => rw [hp] at h; exact absurd h (by simp)
    | diverged => rw [hp] at h; exact absurd h (by simp)

/-- The value list a `*` day-of-month field generates (the loop of
`GenerateValueSlice` over 1..31 with step 1). -/
def dom31Vals : List Int :=
  [1, 2, 3, 4, 5, 6, 7, 8, 9, 10, 11, 12, 13, 14, 15, 16, 17, 18, 19, 20,
   21, 22, 23, 24, 25, 26, 27, 28, 29, 30, 31]

/-- The value list a `*` day-of-week field generates (the loop of
`GenerateValueSlice` over 0..6 with step 1). -/
def dow7Vals : List Int := [0, 1, 2, 3, 4, 5, 6]

/-- The day-of-month component written by `AddByIndex` at index 2. -/
theorem AddByIndex_DaysOfMonth_at2 (s : Schedule) (vs : List Int) :
    (AddByIndex s vs 2).DaysOfMonth =
      addValues s.DaysOfMonth vs FieldDayOfMonthMin FieldDayOfMonthMax := rfl

/-- The day-of-week component written by `AddByIndex` at index 4. -/
theorem AddByIndex_DaysOfTheWeek_at4 (s : Schedule) (vs : List Int) :
    (AddByIndex s vs 4).DaysOfTheWeek =
      addValues s.DaysOfTheWeek vs FieldDayOfTheWeekMin FieldDayOfTheWeekMax := rfl

/-- The day-of-month map a `*` day-of-month field parses to. -/
def dom31 : List (Int × Int) :=
  [(1,1),(2,1),(3,1),(4,1),(5,1),(6,1),(7,1),(8,1),(9,1),(10,1),
   (11,1),(12,1),(13,1),(14,1),(15,1),(16,1),(17,1),(18,1),(19,1),(20,1),
   (21,1),(22,1),(23,1),(24,1),(25,1),(26,1),(27,1),(28,1),(29,1),(30,1),(31,1)]

/-- The day-of-week map a `*` day-of-week field parses to. -/
def dow7 : List (Int × Int) := [(0,1),(1,1),(2,1),(3,1),(4,1),(5,1),(6,1)]

/-- Membership in the full day-of-month map is exactly the domain 1..31. -/
theorem dom31_mem : ∀ k : Int, mapMem dom31 k = true ↔
    (FieldDayOfMonthMin ≤ k ∧ k ≤ FieldDayOfMonthMax) := by
  intro k
  simp [dom31, mapMem, FieldDayOfMonthMin, FieldDayOfMonthMax]
  omega

/-- Membership in the full day-of-week map is exactly the domain 0..6. -/
theorem dow7_mem : ∀ k : Int, mapMem dow7 k = true ↔
    (FieldDayOfTheWeekMin ≤ k ∧ k ≤ FieldDayOfTheWeekMax) := by
  intro k
  simp [dow7, mapMem, FieldDayOfTheWeekMin, FieldDayOfTheWeekMax]
  omega

/-- C4: after a successful `Parse`, the day-field resolution table holds: a
wildcard day-of-month text with explicit day-of-week text leaves the
day-of-month set empty; a wildcard day-of-week text with explicit day-of-month
text leaves the day-of-week set empty; two wildcard texts leave both sets
holding their full domains (1..31 and 0..6).  Field texts are compared against
the single character `*`, so any other text (including `*/n`) counts as
explicit. -/
theorem parse_day_field_resolution :
    ∀ (input : String) (sched : Schedule), Parse input = .ok sched →
      (((goFieldsOf input).getD 2 [] = ['*'] ∧ (goFieldsOf input).getD 4 [] ≠ ['*']) →
        sched.DaysOfMonth = []) ∧
      (((goFieldsOf input).getD 2 [] ≠ ['*'] ∧ (goFieldsOf input).getD 4 [] = ['*']) →
        sched.DaysOfTheWeek = []) ∧
      (((goFieldsOf input).getD 2 [] = ['*'] ∧ (goFieldsOf input).getD 4 [] = ['*']) →
        (∀ k : Int, mapMem sched.DaysOfMonth k = true ↔
          (FieldDayOfMonthMin ≤ k ∧ k ≤ FieldDayOfMonthMax)) ∧
        (∀ k : Int, mapMem sched.DaysOfTheWeek k = true ↔
          (FieldDayOfTheWeekMin ≤ k ∧ k ≤ FieldDayOfTheWeekMax))) := by
  intro input sched hp
  have hlen : (goFieldsOf input).length = 5 := by
    by_contra hne
    unfold goFieldsOf at hne
    simp only [Parse] at hp
    rw [if_pos hne] at hp
    exact ParseResult.noConfusion hp
  obtain ⟨f0, f1, f2, f3, f4, hf⟩ := list_length_five _ hlen
  rw [Parse_eq_of_fields hf (by rw [← hf]; exact hlen), enum_five] at hp
  rw [hf]
  have hg2 : [f0, f1, f2, f3, f4].getD 2 [] = f2 := rfl
  have hg4 : [f0, f1, f2, f3, f4].getD 4 [] = f4 := rfl
  rw [hg2, hg4]
  cases hpf : processFields { EmptySchedule with ScheduleStr := trimChars input.data }
      [(0, f0), (1, f1), (2, f2), (3, f3), (4, f4)] with
  | err e => rw [hpf] at hp; exact absurd hp (by simp)
  | panicked => rw [hpf] at hp; exact absurd hp (by simp)
  | diverged => rw [hpf] at hp; exact absurd hp (by simp)
  | ok sched0 =>
    rw [hpf] at hp
    simp only [ParseResult.ok.injEq] at hp
    refine ⟨?_, ?_, ?_⟩
    · rintro ⟨h2, h4⟩
      rw [← hp]
      show (resolveDayFields sched0 f2 f4).DaysOfMonth = []
      simp only [resolveDayFields]
      rw [if_neg (fun hc => hc.1 h2), if_pos ⟨h2, h4⟩]
    · rintro ⟨h2, h4⟩
      rw [← hp]
      show (resolveDayFields sched0 f2 f4).DaysOfTheWeek = []
      simp only [resolveDayFields]
      rw [if_pos ⟨h2, h4⟩]
    · rintro ⟨h2, h4⟩
      have h2' : f2 = ['*'] := h2
      have h4' : f4 = ['*'] := h4
      subst h2' h4'
      have hres : resolveDayFields sched0 ['*'] ['*'] = sched0 := by
        simp only [resolveDayFields]
        rw [if_neg (fun hc => hc.1 rfl), if_neg (fun hc => hc.2 rfl)]
      obtain ⟨hne0, s1, hp0, hr0⟩ :=
        processFields_cons_ok FieldMinuteMin FieldMinuteMax hpf rfl
      obtain ⟨hne1, s2, hp1, hr1⟩ :=
        processFields_cons_ok FieldHourMin FieldHourMax hr0 rfl
      obtain ⟨hne2, s3, hp2, hr2⟩ :=
        processFields_cons_ok FieldDayOfMonthMin FieldDayOfMonthMax hr1 rfl
      obtain ⟨hne3, s4, hp3, hr3⟩ :=
        processFields_cons_ok FieldMonthMin FieldMonthMax hr2 rfl
      obtain ⟨hne4, s5, hp4, hr4⟩ :=
        processFields_cons_ok FieldDayOfTheWeekMin FieldDayOfTheWeekMax hr3 rfl
      have hs5 : s5 = sched0 := by
        simp only [processFields, ParseResult.ok.injEq] at hr4
        exact hr4
      have hd1 : s1.DaysOfMonth = [] := by
        rw [processTokens_DaysOfMonth_ne 0 (by omega) _ _ _ _ _ hp0]
        rfl
      have hd2 : s2.DaysOfMonth = [] := by
        rw [processTokens_DaysOfMonth_ne 1 (by omega) _ _ _ _ _ hp1, hd1]
      have hstep2 : processTokens s2 2 FieldDayOfMonthMin FieldDayOfMonthMax
          (splitOnChar ',' ['*']) =
          .ok (AddByIndex (AddFieldStrByIndex s2 ['*'] 2) dom31Vals 2) := rfl
      have hs3 : AddByIndex (AddFieldStrByIndex s2 ['*'] 2) dom31Vals 2 = s3 :=
        ParseResult.ok.inj (hstep2.symm.trans hp2)
      have hproj2 := congrArg Schedule.DaysOfMonth hs3
      have hL2 : (AddByIndex (AddFieldStrByIndex s2 ['*'] 2) dom31Vals 2).DaysOfMonth =
          addValues s2.DaysOfMonth dom31Vals
            FieldDayOfMonthMin FieldDayOfMonthMax := by
        rw [AddByIndex_DaysOfMonth_at2, AddFieldStrByIndex_DaysOfMonth]
      have hconcrete2 : addValues [] dom31Vals
          FieldDayOfMonthMin FieldDayOfMonthMax = dom31 := by decide
      have hd5 : sched0.DaysOfMonth = dom31 := by
        rw [← hs5, processTokens_DaysOfMonth_ne 4 (by omega) _ _ _ _ _ hp4,
          processTokens_DaysOfMonth_ne 3 (by omega) _ _ _ _ _ hp3,
          ← hproj2, hL2, hd2, hconcrete2]
      have hw1 : s1.DaysOfTheWeek = [] := by
        rw [processTokens_DaysOfTheWeek_ne 0 (by omega) _ _ _ _ _ hp0]
        rfl
      have hw2 : s2.DaysOfTheWeek = [] := by
        rw [processTokens_DaysOfTheWeek_ne 1 (by omega) _ _ _ _ _ hp1, hw1]
      have hw3 : s3.DaysOfTheWeek = [] := by
        rw [processTokens_DaysOfTheWeek_ne 2 (by omega) _ _ _ _ _ hp2, hw2]
      have hw4 : s4.DaysOfTheWeek = [] := by
        rw [processTokens_DaysOfTheWeek_ne 3 (by omega) _ _ _ _ _ hp3, hw3]
      have hstep4 : processTokens s4 4 FieldDayOfTheWeekMin FieldDayOfTheWeekMax
          (splitOnChar ',' ['*']) =
          .ok (AddByIndex (AddFieldStrByIndex s4 ['*'] 4) dow7Vals 4) := rfl
      have hs5' : AddByIndex (AddFieldStrByIndex s4 ['*'] 4) dow7Vals 4 = s5 :=
        ParseResult.ok.inj (hstep4.symm.trans hp4)
      have hproj4 := congrArg Schedule.DaysOfTheWeek hs5'
      have hL4 : (AddByIndex (AddFieldStrByIndex s4 ['*'] 4) dow7Vals 4).DaysOfTheWeek =
          addValues s4.DaysOfTheWeek dow7Vals
            FieldDayOfTheWeekMin FieldDayOfTheWeekMax := by
        rw [AddByIndex_DaysOfTheWeek_at4, AddFieldStrByIndex_DaysOfTheWeek]
      have hconcrete4 : addValues [] dow7Vals
          FieldDayOfTheWeekMin FieldDayOfTheWeekMax = dow7 := by decide
      have hw5 : sched0.DaysOfTheWeek = dow7 := by
        rw [← hs5, ← hproj4, hL4, hw4, hconcrete4]
      refine ⟨fun k => ?_, fun k => ?_⟩
      · rw [← hp]
        show mapMem (resolveDayFields sched0 ['*'] ['*']).DaysOfMonth k = true ↔ _
        rw [hres, hd5]
        exact dom31_mem k
      · rw [← hp]
        show mapMem (resolveDayFields sched0 ['*'] ['*']).DaysOfTheWeek k = true ↔ _
        rw [hres, hw5]
        exact dow7_mem k

/-- C4 witness: the theorem applied to the fixture schedule, whose wildcard
day-of-month with explicit day-of-week leaves the day-of-month set empty. -/
theorem parse_day_field_resolution_witness :
    Parse "0 22 * * 1-5" = ParseResult.ok weekdaySched ∧ weekdaySched.DaysOfMonth = [] :=
  ⟨by decide,
   (parse_day_field_resolution "0 22 * * 1-5" weekdaySched (by decide)).1 (by decide)⟩
